import Mathlib

/-!
Verification of the wasmd-indexer ingestion pipeline against the source.

The TypeScript sources are embedded shallowly:
* `IndexerWasmEvent`, `concatKey`, `objAssign`, `uniqueIndexerEvents`, `dedupEvents`
  model the deduplication step of `flush` in `src/scripts/export/modules/wasm.ts`
  (the JS `reduce` builds a plain object whose keys are the string concatenation
  `event.blockHeight + event.contractAddress + event.key`; `Object.values` then
  yields the kept records in first-insertion key order).
-/

set_option autoImplicit false

namespace WasmdIndexer

/-- A raw event record from the input stream, after JSON-line parsing and
structural validation (`IndexerWasmEvent` in `wasm.ts`).  `key` and `value`
are the base64 strings from the stream. -/
structure IndexerWasmEvent where
  blockHeight : Nat
  blockTimeUnixMs : Nat
  contractAddress : String
  codeId : Nat
  key : String
  value : String
  delete : Bool
  deriving Repr, DecidableEq

/-- The deduplication key used by `flush`:
`event.blockHeight + event.contractAddress + event.key` — JavaScript number-to-
string coercion followed by string concatenation, with no separators. -/
def concatKey (e : IndexerWasmEvent) : String :=
  toString e.blockHeight ++ e.contractAddress ++ e.key

/-- One step of the JS `reduce`: the assignment `acc[key] = event` on a plain
object.  Plain objects keep first-insertion key order for string keys, and a
re-assignment overwrites the value in place. -/
def objAssign (acc : List (String × IndexerWasmEvent)) (e : IndexerWasmEvent) :
    List (String × IndexerWasmEvent) :=
  if acc.any (fun p => p.1 = concatKey e) then
    acc.map (fun p => if p.1 = concatKey e then (p.1, e) else p)
  else acc ++ [(concatKey e, e)]

/-- `pending.reduce((acc, event) => { acc[key] = event; return acc }, {})`. -/
def uniqueIndexerEvents (pending : List IndexerWasmEvent) :
    List (String × IndexerWasmEvent) :=
  pending.foldl objAssign []

/-- `Object.values(uniqueIndexerEvents)` — the deduplicated batch. -/
def dedupEvents (pending : List IndexerWasmEvent) : List IndexerWasmEvent :=
  (uniqueIndexerEvents pending).map Prod.snd

/-- Lookup in the association-list model of the JS object. -/
def assocFind (k : String) : List (String × IndexerWasmEvent) → Option IndexerWasmEvent
  | [] => none
  | p :: ps => if p.1 = k then some p.2 else assocFind k ps

/-- The last record in `l` whose dedup key is `k`. -/
def lastWithKey (l : List IndexerWasmEvent) (k : String) : Option IndexerWasmEvent :=
  (l.filter (fun e => concatKey e = k)).getLast?

theorem assocFind_append (k : String) (l₁ l₂ : List (String × IndexerWasmEvent)) :
    assocFind k (l₁ ++ l₂) =
      match assocFind k l₁ with
      | some v => some v
      | none => assocFind k l₂ := by
  induction l₁ with
  | nil => simp [assocFind]
  | cons p ps ih =>
    by_cases h : p.1 = k <;> simp [assocFind, h, ih]

theorem assocFind_map_assign (acc : List (String × IndexerWasmEvent))
    (c : String) (e : IndexerWasmEvent) (k : String) :
    assocFind k (acc.map (fun p => if p.1 = c then (p.1, e) else p)) =
      if k = c then (assocFind k acc).map (fun _ => e) else assocFind k acc := by
  induction acc with
  | nil => by_cases hk : k = c <;> simp [assocFind, hk]
  | cons p ps ih =>
    by_cases hp : p.1 = c
    · by_cases hk : k = c
      · subst hk
        simp [assocFind, hp]
      · have hpk : ¬ p.1 = k := fun h => hk (h ▸ hp)
        simp only [List.map_cons, if_pos hp, assocFind]
        rw [if_neg (by simpa using hpk), if_neg hpk, ih, if_neg hk]
    · by_cases hpk : p.1 = k
      · have hk : ¬ k = c := fun h => hp (hpk.symm ▸ h ▸ rfl)
        simp [assocFind, hp, hpk, hk]
      · simp only [List.map_cons, if_neg hp, assocFind, if_neg hpk, ih]

theorem any_key_iff_assocFind (acc : List (String × IndexerWasmEvent)) (c : String) :
    acc.any (fun p => p.1 = c) = true ↔ (assocFind c acc).isSome = true := by
  induction acc with
  | nil => simp [assocFind]
  | cons p ps ih =>
    by_cases hp : p.1 = c <;> simp [assocFind, hp, ih]

theorem assocFind_objAssign (acc : List (String × IndexerWasmEvent))
    (e : IndexerWasmEvent) (k : String) :
    assocFind k (objAssign acc e) =
      if k = concatKey e then some e else assocFind k acc := by
  unfold objAssign
  by_cases hmem : acc.any (fun p => p.1 = concatKey e) = true
  · rw [if_pos hmem, assocFind_map_assign]
    by_cases hk : k = concatKey e
    · rw [if_pos hk, if_pos hk]
      rcases ho : assocFind k acc with _ | v
      · exfalso
        rw [any_key_iff_assocFind, ← hk, ho] at hmem
        simp at hmem
      · simp
    · rw [if_neg hk, if_neg hk]
  · rw [if_neg hmem, assocFind_append]
    by_cases hk : k = concatKey e
    · have hnone : assocFind k acc = none := by
        rcases ho : assocFind k acc with _ | v
        · rfl
        · exact absurd ((any_key_iff_assocFind acc (concatKey e)).mpr
            (by rw [← hk, ho]; simp)) hmem
      rw [hnone, if_pos hk]
      simp [assocFind, hk]
    · rw [if_neg hk]
      rcases ho : assocFind k acc with _ | v
      · simp only [assocFind]
        rw [if_neg (fun h => hk h.symm)]
      · simp

theorem lastWithKey_cons (e : IndexerWasmEvent) (l : List IndexerWasmEvent) (k : String) :
    lastWithKey (e :: l) k =
      match lastWithKey l k with
      | some v => some v
      | none => if concatKey e = k then some e else none := by
  unfold lastWithKey
  by_cases h : concatKey e = k
  · rw [List.filter_cons_of_pos (by simpa using h), List.getLast?_cons]
    rcases ho : (l.filter (fun x => concatKey x = k)).getLast? with _ | v
    · simp [List.getLastD_eq_getLast?, ho, h]
    · simp [List.getLastD_eq_getLast?, ho]
  · rw [List.filter_cons_of_neg (by simpa using h)]
    rcases ho : (l.filter (fun x => concatKey x = k)).getLast? with _ | v <;> simp [h]

theorem assocFind_foldl (l : List IndexerWasmEvent)
    (acc : List (String × IndexerWasmEvent)) (k : String) :
    assocFind k (l.foldl objAssign acc) =
      match lastWithKey l k with
      | some v => some v
      | none => assocFind k acc := by
  induction l generalizing acc with
  | nil => simp [lastWithKey, assocFind]
  | cons e l ih =>
    rw [List.foldl_cons, ih, lastWithKey_cons]
    rcases lastWithKey l k with _ | v
    · rw [assocFind_objAssign]
      by_cases hk : k = concatKey e
      · rw [if_pos hk, if_pos (hk ▸ rfl)]
      · rw [if_neg hk, if_neg (fun h => hk h.symm)]
    · rfl

theorem mem_uniqueIndexerEvents_key (l : List IndexerWasmEvent) :
    ∀ p ∈ uniqueIndexerEvents l, p.1 = concatKey p.2 := by
  have step : ∀ (acc : List (String × IndexerWasmEvent)) (e : IndexerWasmEvent),
      (∀ p ∈ acc, p.1 = concatKey p.2) → ∀ p ∈ objAssign acc e, p.1 = concatKey p.2 := by
    intro acc e hacc p hp
    unfold objAssign at hp
    by_cases hmem : acc.any (fun q => q.1 = concatKey e) = true
    · rw [if_pos hmem] at hp
      rcases List.mem_map.mp hp with ⟨q, hq, hq2⟩
      by_cases h : q.1 = concatKey e
      · rw [if_pos h] at hq2
        rw [← hq2]
        exact h
      · rw [if_neg h] at hq2
        exact hq2 ▸ hacc q hq
    · rw [if_neg hmem] at hp
      rcases List.mem_append.mp hp with h | h
      · exact hacc p h
      · simp at h
        simp [h]
  suffices H : ∀ (l : List IndexerWasmEvent) (acc : List (String × IndexerWasmEvent)),
      (∀ p ∈ acc, p.1 = concatKey p.2) → ∀ p ∈ l.foldl objAssign acc, p.1 = concatKey p.2 by
    exact H l [] (by simp)
  intro l
  induction l with
  | nil => intro acc hacc; simpa using hacc
  | cons e l ih =>
    intro acc hacc
    exact ih (objAssign acc e) (step acc e hacc)

theorem nodup_keys_uniqueIndexerEvents (l : List IndexerWasmEvent) :
    ((uniqueIndexerEvents l).map Prod.fst).Nodup := by
  have step : ∀ (acc : List (String × IndexerWasmEvent)) (e : IndexerWasmEvent),
      (acc.map Prod.fst).Nodup → ((objAssign acc e).map Prod.fst).Nodup := by
    intro acc e hacc
    unfold objAssign
    by_cases hmem : acc.any (fun q => q.1 = concatKey e) = true
    · rw [if_pos hmem]
      have : (acc.map (fun p => if p.1 = concatKey e then (p.1, e) else p)).map Prod.fst
          = acc.map Prod.fst := by
        rw [List.map_map]
        apply List.map_congr_left
        intro p _
        by_cases h : p.1 = concatKey e <;> simp [h]
      rw [this]
      exact hacc
    · rw [if_neg hmem, List.map_append]
      rw [List.nodup_append]
      refine ⟨hacc, by simp, ?_⟩
      intro a ha hb
      simp only [List.map_cons, List.map_nil, List.mem_singleton] at hb
      subst hb
      rcases List.mem_map.mp ha with ⟨q, hq, hq1⟩
      exact hmem (List.any_eq_true.mpr ⟨q, hq, by simp [hq1]⟩)
  suffices H : ∀ (l : List IndexerWasmEvent) (acc : List (String × IndexerWasmEvent)),
      (acc.map Prod.fst).Nodup → ((l.foldl objAssign acc).map Prod.fst).Nodup by
    exact H l [] (by simp)
  intro l
  induction l with
  | nil => intro acc hacc; simpa using hacc
  | cons e l ih =>
    intro acc hacc
    exact ih (objAssign acc e) (step acc e hacc)

theorem assocFind_eq_some_of_mem (acc : List (String × IndexerWasmEvent))
    (hnd : (acc.map Prod.fst).Nodup) (k : String) (v : IndexerWasmEvent)
    (hmem : (k, v) ∈ acc) : assocFind k acc = some v := by
  induction acc with
  | nil => simp at hmem
  | cons p ps ih =>
    rcases List.mem_cons.mp hmem with rfl | h
    · simp [assocFind]
    · have hnd' := (List.nodup_cons.mp hnd)
      have hne : ¬ p.1 = k := by
        intro hpk
        exact hnd'.1 (hpk ▸ List.mem_map.mpr ⟨(k, v), h, rfl⟩)
      simp only [assocFind, if_neg hne]
      exact ih hnd'.2 h

theorem mem_of_assocFind_eq_some (acc : List (String × IndexerWasmEvent))
    (k : String) (v : IndexerWasmEvent) (h : assocFind k acc = some v) : (k, v) ∈ acc := by
  induction acc with
  | nil => simp [assocFind] at h
  | cons p ps ih =>
    by_cases hp : p.1 = k
    · simp only [assocFind, if_pos hp] at h
      have hpv : p = (k, v) := by
        cases p
        simp only at hp
        injection h with h2
        simp only at h2
        simp [hp, h2]
      rw [← hpv]
      exact List.mem_cons_self _ _
    · simp only [assocFind, if_neg hp] at h
      exact List.mem_cons_of_mem _ (ih h)

/-- C1 (amended).  The deduplication step of `flush` keeps, for each distinct
*concatenated string* `String(blockHeight) ++ contractAddress ++ key`, exactly
the last record in buffer order with that concatenation: a record survives
deduplication iff it is the last element of the pending buffer carrying its
concatenation key.  In particular two events at the same
`(blockHeight, contractAddress, key)` yield exactly one surviving record — the
later one — but records whose triples differ are merged as well whenever their
concatenations coincide. -/
theorem wasm_flush_dedup_keeps_last_per_concat_key
    (pending : List IndexerWasmEvent) (e : IndexerWasmEvent) :
    e ∈ dedupEvents pending ↔
      (pending.filter (fun x => concatKey x = concatKey e)).getLast? = some e := by
  constructor
  · intro hmem
    rcases List.mem_map.mp hmem with ⟨p, hp, hsnd⟩
    have hkey : p.1 = concatKey p.2 := mem_uniqueIndexerEvents_key pending p hp
    have hfind : assocFind p.1 (uniqueIndexerEvents pending) = some p.2 := by
      apply assocFind_eq_some_of_mem _ (nodup_keys_uniqueIndexerEvents pending)
      rcases p with ⟨k, v⟩
      exact hp
    rw [hsnd] at hkey
    rw [hkey, hsnd] at hfind
    have hchar := assocFind_foldl pending [] (concatKey e)
    rw [show (pending.foldl objAssign [] : List (String × IndexerWasmEvent))
        = uniqueIndexerEvents pending from rfl, hfind] at hchar
    show lastWithKey pending (concatKey e) = some e
    rcases ho : lastWithKey pending (concatKey e) with _ | v
    · rw [ho] at hchar
      simp [assocFind] at hchar
    · rw [ho] at hchar
      exact hchar.symm
  · intro hlast
    have hfind : assocFind (concatKey e) (uniqueIndexerEvents pending) = some e := by
      have hchar := assocFind_foldl pending [] (concatKey e)
      have hlast' : lastWithKey pending (concatKey e) = some e := hlast
      rw [hlast'] at hchar
      exact hchar
    exact List.mem_map.mpr ⟨(concatKey e, e),
      mem_of_assocFind_eq_some _ _ _ hfind, rfl⟩

/-- First record of the colliding pair: triple `(1, "2a", "k")`. -/
def collideFst : IndexerWasmEvent :=
  { blockHeight := 1, blockTimeUnixMs := 0, contractAddress := "2a", codeId := 0,
    key := "k", value := "", delete := false }

/-- Second record of the colliding pair: triple `(12, "a", "k")`.  Both records
concatenate to the dedup key `"12ak"`. -/
def collideSnd : IndexerWasmEvent :=
  { blockHeight := 12, blockTimeUnixMs := 0, contractAddress := "a", codeId := 0,
    key := "k", value := "", delete := false }

/-- C1 counterexample.  The two records have different
`(blockHeight, contractAddress, key)` triples, yet deduplication merges them
into a single record, because the dedup key is the separator-free string
concatenation of the three components: `"1" ++ "2a" ++ "k" = "12" ++ "a" ++ "k"`.
The claim that records whose triples differ are never merged is false. -/
theorem wasm_flush_dedup_merges_colliding_triples :
    (collideFst.blockHeight, collideFst.contractAddress, collideFst.key) ≠
      (collideSnd.blockHeight, collideSnd.contractAddress, collideSnd.key) ∧
    dedupEvents [collideFst, collideSnd] = [collideSnd] := by
  constructor
  · decide
  · decide

/-!
### Ingestion handler (C3)

`HandlerState`, `handlerStep` and `runWasmExport` embed the `handler` closure
of `wasm.ts` (lines 119–179): skip records below `initialBlock` (updating
`lastBlockHeightSeen`), flush when the pending buffer holds at least `batch`
records and the incoming record starts a new block, then append the record.
`flushStep` records the flushed pending buffer as one batch (the DB export
itself is modelled separately); `flush` is a no-op on an empty buffer, as in
the source.  Records failing JSON/structural validation leave the state
untouched in the source, so the model ranges over valid records only.
-/

/-- State of the `handler` closure, extended with the list of batches handed
to the exporter so far. -/
structure HandlerState where
  pending : List IndexerWasmEvent
  lastBlockHeightSeen : Nat
  flushedBatches : List (List IndexerWasmEvent)
  deriving Repr, DecidableEq

/-- `flush()`: returns immediately on an empty buffer, otherwise exports the
pending events as one batch and clears the buffer. -/
def flushStep (s : HandlerState) : HandlerState :=
  if s.pending = [] then s
  else { s with flushedBatches := s.flushedBatches ++ [s.pending], pending := [] }

/-- One invocation of `handler` on a structurally valid record. -/
def handlerStep (batch initialBlock : Nat) (s : HandlerState) (e : IndexerWasmEvent) :
    HandlerState :=
  if e.blockHeight < initialBlock then
    { s with lastBlockHeightSeen := e.blockHeight }
  else
    let s1 := if batch ≤ s.pending.length ∧ s.lastBlockHeightSeen < e.blockHeight
      then flushStep s else s
    { s1 with pending := s1.pending ++ [e], lastBlockHeightSeen := e.blockHeight }

/-- The initial handler state: empty buffer, `lastBlockHeightSeen = 0`. -/
def initialHandlerState : HandlerState := ⟨[], 0, []⟩

/-- Run the handler over a whole input stream and perform the explicit
`flush()` issued at stream end. -/
def runWasmExport (batch initialBlock : Nat) (input : List IndexerWasmEvent) :
    HandlerState :=
  flushStep (input.foldl (handlerStep batch initialBlock) initialHandlerState)

/-- Every event of the first batch was persisted strictly before every event
of the second batch, block-wise. -/
def batchBefore (b1 b2 : List IndexerWasmEvent) : Prop :=
  ∀ e1 ∈ b1, ∀ e2 ∈ b2, e1.blockHeight < e2.blockHeight

/-- Inductive invariant of the handler loop. -/
def HandlerInv (s : HandlerState) : Prop :=
  (∀ e ∈ s.pending, e.blockHeight ≤ s.lastBlockHeightSeen) ∧
  (∀ b ∈ s.flushedBatches, ∀ e ∈ b, e.blockHeight < s.lastBlockHeightSeen) ∧
  (s.flushedBatches ++ [s.pending]).Pairwise batchBefore

theorem handlerStep_lastSeen (batch initialBlock : Nat) (s : HandlerState)
    (e : IndexerWasmEvent) :
    (handlerStep batch initialBlock s e).lastBlockHeightSeen = e.blockHeight := by
  unfold handlerStep
  by_cases h1 : e.blockHeight < initialBlock
  · rw [if_pos h1]
  · rw [if_neg h1]

theorem handlerStep_preserves_inv (batch initialBlock : Nat) (s : HandlerState)
    (e : IndexerWasmEvent) (hinv : HandlerInv s)
    (hle : s.lastBlockHeightSeen ≤ e.blockHeight) :
    HandlerInv (handlerStep batch initialBlock s e) := by
  obtain ⟨hpend, hbatches, hpair⟩ := hinv
  unfold handlerStep
  by_cases h1 : e.blockHeight < initialBlock
  · rw [if_pos h1]
    refine ⟨?_, ?_, hpair⟩
    · intro x hx
      exact le_trans (hpend x hx) hle
    · intro b hb x hx
      exact lt_of_lt_of_le (hbatches b hb x hx) hle
  · rw [if_neg h1]
    by_cases h2 : batch ≤ s.pending.length ∧ s.lastBlockHeightSeen < e.blockHeight
    · rw [if_pos h2]
      unfold flushStep
      by_cases h3 : s.pending = []
      · rw [if_pos h3]
        refine ⟨?_, ?_, ?_⟩
        · intro x hx
          simp only [h3, List.nil_append, List.mem_singleton] at hx
          simp [hx]
        · intro b hb x hx
          exact lt_of_lt_of_le (hbatches b hb x hx) hle
        · rw [h3] at hpair
          have hpair' : s.flushedBatches.Pairwise batchBefore :=
            (List.pairwise_append.mp hpair).1
          rw [List.pairwise_append]
          refine ⟨hpair', by simp [List.pairwise_singleton], ?_⟩
          intro b hb b' hb'
          simp only [List.mem_singleton] at hb'
          subst hb'
          intro x hx y hy
          simp only [h3, List.nil_append, List.mem_singleton] at hy
          subst hy
          exact lt_of_lt_of_le (hbatches b hb x hx) hle
      · rw [if_neg h3]
        refine ⟨?_, ?_, ?_⟩
        · intro x hx
          simp only [List.nil_append, List.mem_singleton] at hx
          simp [hx]
        · intro b hb x hx
          rcases List.mem_append.mp hb with hb' | hb'
          · exact lt_of_lt_of_le (hbatches b hb' x hx) hle
          · simp only [List.mem_singleton] at hb'
            subst hb'
            exact lt_of_le_of_lt (hpend x hx) h2.2
        · rw [List.pairwise_append]
          refine ⟨?_, by simp [List.pairwise_singleton], ?_⟩
          · rw [List.pairwise_append]
            have := List.pairwise_append.mp hpair
            refine ⟨this.1, by simp [List.pairwise_singleton], ?_⟩
            intro b hb b' hb'
            simp only [List.mem_singleton] at hb'
            subst hb'
            exact this.2.2 b hb s.pending (List.mem_singleton.mpr rfl)
          · intro b hb b' hb'
            simp only [List.mem_singleton] at hb'
            subst hb'
            intro x hx y hy
            simp only [List.nil_append, List.mem_singleton] at hy
            subst hy
            rcases List.mem_append.mp hb with hb' | hb'
            · exact lt_of_lt_of_le (hbatches b hb' x hx) hle
            · simp only [List.mem_singleton] at hb'
              subst hb'
              exact lt_of_le_of_lt (hpend x hx) h2.2
    · rw [if_neg h2]
      refine ⟨?_, ?_, ?_⟩
      · intro x hx
        rcases List.mem_append.mp hx with hx' | hx'
        · exact le_trans (hpend x hx') hle
        · simp only [List.mem_singleton] at hx'
          simp [hx']
      · intro b hb x hx
        exact lt_of_lt_of_le (hbatches b hb x hx) hle
      · rw [List.pairwise_append]
        have := List.pairwise_append.mp hpair
        refine ⟨this.1, by simp [List.pairwise_singleton], ?_⟩
        intro b hb b' hb'
        simp only [List.mem_singleton] at hb'
        subst hb'
        intro x hx y hy
        rcases List.mem_append.mp hy with hy' | hy'
        · exact this.2.2 b hb s.pending (List.mem_singleton.mpr rfl) x hx y hy'
        · simp only [List.mem_singleton] at hy'
          subst hy'
          exact lt_of_lt_of_le (hbatches b hb x hx) hle

theorem foldl_handler_preserves_inv (batch initialBlock : Nat) :
    ∀ (input : List IndexerWasmEvent) (s : HandlerState),
      (input.map IndexerWasmEvent.blockHeight).Sorted (· ≤ ·) →
      (∀ e ∈ input, s.lastBlockHeightSeen ≤ e.blockHeight) →
      HandlerInv s →
      HandlerInv (input.foldl (handlerStep batch initialBlock) s) := by
  intro input
  induction input with
  | nil => intro s _ _ hinv; simpa using hinv
  | cons e rest ih =>
    intro s hsorted hle hinv
    rw [List.foldl_cons]
    have hsorted' : (rest.map IndexerWasmEvent.blockHeight).Sorted (· ≤ ·) := by
      simp only [List.map_cons, List.sorted_cons] at hsorted
      exact hsorted.2
    have hhead : ∀ x ∈ rest, e.blockHeight ≤ x.blockHeight := by
      simp only [List.map_cons, List.sorted_cons] at hsorted
      intro x hx
      exact hsorted.1 x.blockHeight (List.mem_map.mpr ⟨x, hx, rfl⟩)
    apply ih
    · exact hsorted'
    · intro x hx
      rw [handlerStep_lastSeen]
      exact hhead x hx
    · exact handlerStep_preserves_inv batch initialBlock s e hinv
        (hle e (List.mem_cons_self _ _))

/-- C3.  `handler` flushes only at block boundaries: the flush call is guarded
by `pending.length >= batch && event.blockHeight > lastBlockHeightSeen`
(`wasm.ts:167`), so for a stream delivered in non-decreasing block order the
batches handed to the exporter (including the final explicit `flush()`) are
strictly separated by block height — no two events of the same block are ever
persisted by different flushes. -/
theorem wasm_handler_never_splits_a_block (batch initialBlock : Nat)
    (input : List IndexerWasmEvent)
    (hsorted : (input.map IndexerWasmEvent.blockHeight).Sorted (· ≤ ·)) :
    ((runWasmExport batch initialBlock input).flushedBatches).Pairwise batchBefore := by
  have hinv : HandlerInv (input.foldl (handlerStep batch initialBlock) initialHandlerState) := by
    apply foldl_handler_preserves_inv batch initialBlock input initialHandlerState hsorted
    · intro e _
      exact Nat.zero_le _
    · refine ⟨by simp [initialHandlerState], by simp [initialHandlerState], ?_⟩
      simp [initialHandlerState, List.pairwise_singleton]
  obtain ⟨_, _, hpair⟩ := hinv
  unfold runWasmExport flushStep
  by_cases h : (input.foldl (handlerStep batch initialBlock) initialHandlerState).pending = []
  · rw [if_pos h]
    exact (List.pairwise_append.mp hpair).1
  · rw [if_neg h]
    exact hpair

/-- A small concrete stream: blocks 1, 1, 2, 2, 3 with `batch = 2`. -/
def demoStream : List IndexerWasmEvent :=
  [{ blockHeight := 1, blockTimeUnixMs := 10, contractAddress := "c", codeId := 0,
     key := "a", value := "", delete := false },
   { blockHeight := 1, blockTimeUnixMs := 10, contractAddress := "c", codeId := 0,
     key := "b", value := "", delete := false },
   { blockHeight := 2, blockTimeUnixMs := 20, contractAddress := "c", codeId := 0,
     key := "a", value := "", delete := false },
   { blockHeight := 2, blockTimeUnixMs := 20, contractAddress := "c", codeId := 0,
     key := "b", value := "", delete := false },
   { blockHeight := 3, blockTimeUnixMs := 30, contractAddress := "c", codeId := 0,
     key := "a", value := "", delete := false }]

/-- C3 witness: the block-boundary theorem applied to the concrete stream
`demoStream` with `batch = 2`, `initialBlock = 0`. -/
theorem wasm_handler_never_splits_a_block_witness :
    ((runWasmExport 2 0 demoStream).flushedBatches).Pairwise batchBefore :=
  wasm_handler_never_splits_a_block 2 0 demoStream (by decide)

/-!
### Parsed events (C6)

`parseEvent` embeds the mapping at `wasm.ts:70–99`.  Base64/UTF-8 decoding
(`Buffer.from(_, 'base64').toString('utf-8')`), `JSON.parse` and
`base64KeyToEventKey` are external pure routines there, so they enter the model
as function parameters; `JSON.parse` throwing is modelled by `Option`.
JavaScript's `event.value && decode(event.value)` evaluates to the empty string
when `event.value` is empty (the only falsy string), and the guard
`!event.delete && value` skips JSON parsing for tombstones and empty values.
-/

/-- A JSON value as stored in the `valueJson` column.  `null` doubles as the
JavaScript `null` that `valueJson` is initialised with. -/
inductive JsonVal where
  | null
  | bool (b : Bool)
  | num (n : Int)
  | str (s : String)
  deriving Repr, DecidableEq

/-- `ParsedWasmEvent` (wasm.ts:70–99).  `blockHeight`/`blockTimeUnixMs` are
numeric strings in the source; they are kept as naturals here (the conversion
is injective, and the DB compares them numerically). -/
structure ParsedWasmEvent where
  codeId : Nat
  contractAddress : String
  blockHeight : Nat
  blockTimeUnixMs : Nat
  key : String
  value : String
  valueJson : JsonVal
  delete : Bool
  deriving Repr, DecidableEq

/-- The body of `eventsToExport.map((event) => ...)` in `flush`. -/
def parseEvent (decodeBase64Utf8 : String → String)
    (parseJson : String → Option JsonVal) (base64KeyToEventKey : String → String)
    (e : IndexerWasmEvent) : ParsedWasmEvent :=
  let value := if e.value = "" then "" else decodeBase64Utf8 e.value
  let valueJson :=
    if e.delete = false ∧ value ≠ "" then
      match parseJson value with
      | some j => j
      | none => JsonVal.null
    else JsonVal.null
  { codeId := e.codeId
    contractAddress := e.contractAddress
    blockHeight := e.blockHeight
    blockTimeUnixMs := e.blockTimeUnixMs
    key := base64KeyToEventKey e.key
    value := value
    valueJson := valueJson
    delete := e.delete }

/-- C6.  `valueJson` equals the JSON parse of the base64-decoded UTF-8 value
exactly when `delete` is false, the decoded value is non-empty and parsing
succeeds; in every other case — in particular for every tombstone
(`delete = true`), whether or not an earlier write for the key exists —
`valueJson` is null.  (The source never decodes an empty `value`; the
hypothesis `decode "" = ""` says the decode routine is trivial there, which
holds for base64.) -/
theorem wasm_parse_valueJson_spec (decodeBase64Utf8 : String → String)
    (parseJson : String → Option JsonVal) (base64KeyToEventKey : String → String)
    (e : IndexerWasmEvent) (hdec : decodeBase64Utf8 "" = "") :
    (parseEvent decodeBase64Utf8 parseJson base64KeyToEventKey e).valueJson =
      if e.delete = false ∧ decodeBase64Utf8 e.value ≠ ""
          ∧ (parseJson (decodeBase64Utf8 e.value)).isSome = true
      then (parseJson (decodeBase64Utf8 e.value)).getD JsonVal.null
      else JsonVal.null := by
  unfold parseEvent
  by_cases hv : e.value = ""
  · rw [hv, hdec]
    simp
  · simp only [if_neg hv]
    by_cases hd : e.delete = false
    · by_cases hv' : decodeBase64Utf8 e.value = ""
      · simp [hd, hv']
      · rcases hp : parseJson (decodeBase64Utf8 e.value) with _ | j
        · simp [hd, hv', hp]
        · simp [hd, hv', hp]
    · simp [hd]

/-- A concrete raw record for the C6 witness. -/
def demoRawEvent : IndexerWasmEvent :=
  { blockHeight := 7, blockTimeUnixMs := 70, contractAddress := "c", codeId := 1,
    key := "aGk=", value := "eyJ4IjoxfQ==", delete := false }

/-- C6 witness: the `valueJson` theorem applied at concrete decode/parse
routines and the concrete record `demoRawEvent`. -/
theorem wasm_parse_valueJson_spec_witness :
    (parseEvent (fun s => s) (fun _ => some (JsonVal.num 1)) (fun s => s)
        demoRawEvent).valueJson =
      if demoRawEvent.delete = false ∧ (fun (s : String) => s) demoRawEvent.value ≠ ""
          ∧ ((fun _ => some (JsonVal.num 1)) ((fun (s : String) => s) demoRawEvent.value)).isSome = true
      then ((fun _ => some (JsonVal.num 1)) ((fun (s : String) => s) demoRawEvent.value)).getD JsonVal.null
      else JsonVal.null :=
  wasm_parse_valueJson_spec (fun s => s) (fun _ => some (JsonVal.num 1))
    (fun s => s) demoRawEvent rfl

/-!
### Contract upsert (C5)

`upsertContracts` embeds `Contract.bulkCreate(..., { updateOnDuplicate:
['codeId'] })` at `wasm.ts:209–238`: one row per unique contract address, built
from the first parsed event carrying that address; on a primary-key conflict
only `codeId` is updated.  Tables with a unique index are modelled as
functions from the key to an optional row.
-/

/-- A row of the `Contract` table. -/
structure ContractRow where
  address : String
  codeId : Nat
  instantiatedAtBlockHeight : Nat
  instantiatedAtBlockTimeUnixMs : Nat
  instantiatedAtBlockTimestamp : Nat
  deriving Repr, DecidableEq

/-- The `Contract` table, keyed by its unique `address`. -/
def ContractTable : Type := String → Option ContractRow

/-- `[...new Set(parsedEvents.map((event) => event.contractAddress))]` — JS
`Set` keeps first-occurrence order. -/
def uniqueContracts (parsedEvents : List ParsedWasmEvent) : List String :=
  parsedEvents.foldl
    (fun acc e => if e.contractAddress ∈ acc then acc else acc ++ [e.contractAddress]) []

/-- The row attempted for one address: built from the first event found in
`parsedEvents` with that address (wasm.ts:211–232).  `blockTimestamp` is
`new Date(blockTimeUnixMs)`, kept as the same number of milliseconds. -/
def contractEntry (parsedEvents : List ParsedWasmEvent) (address : String) :
    Option ContractRow :=
  (parsedEvents.find? (fun ev => ev.contractAddress = address)).map fun event =>
    { address := address
      codeId := event.codeId
      instantiatedAtBlockHeight := event.blockHeight
      instantiatedAtBlockTimeUnixMs := event.blockTimeUnixMs
      instantiatedAtBlockTimestamp := event.blockTimeUnixMs }

/-- `bulkCreate` conflict resolution for one attempted row: insert when the
address is fresh, otherwise update `codeId` only. -/
def contractUpsertOne (t : ContractTable) (entry : ContractRow) : ContractTable :=
  fun a =>
    if a = entry.address then
      match t a with
      | some old => some { old with codeId := entry.codeId }
      | none => some entry
    else t a

/-- The upsert attempt for one address of the batch. -/
def contractUpsertFor (parsedEvents : List ParsedWasmEvent) (t : ContractTable)
    (a : String) : ContractTable :=
  match contractEntry parsedEvents a with
  | some entry => contractUpsertOne t entry
  | none => t

/-- The whole contract upsert of `exporter` for one batch. -/
def upsertContracts (t : ContractTable) (parsedEvents : List ParsedWasmEvent) :
    ContractTable :=
  (uniqueContracts parsedEvents).foldl (contractUpsertFor parsedEvents) t

theorem contractUpsertOne_frame (t : ContractTable) (entry : ContractRow)
    (a : String) (r : ContractRow) (c : Nat) (h : t a = some { r with codeId := c }) :
    ∃ c', contractUpsertOne t entry a = some { r with codeId := c' } := by
  unfold contractUpsertOne
  by_cases ha : a = entry.address
  · rw [if_pos ha, h]
    exact ⟨entry.codeId, rfl⟩
  · rw [if_neg ha, h]
    exact ⟨c, rfl⟩

/-- C5.  For an address that already has a `Contract` row, the contract upsert
of any later batch can change only the `codeId` field of that row:
`address` and the three `instantiatedAt*` columns survive every upsert
unchanged. -/
theorem wasm_contract_upsert_preserves_instantiatedAt
    (t : ContractTable) (parsedEvents : List ParsedWasmEvent)
    (a : String) (r : ContractRow) (h : t a = some r) :
    ∃ c, upsertContracts t parsedEvents a = some { r with codeId := c } := by
  unfold upsertContracts
  have hgen : ∀ (addrs : List String) (t' : ContractTable) (c : Nat),
      t' a = some { r with codeId := c } →
      ∃ c', (addrs.foldl (contractUpsertFor parsedEvents) t') a
        = some { r with codeId := c' } := by
    intro addrs
    induction addrs with
    | nil => intro t' c h'; exact ⟨c, h'⟩
    | cons b rest ih =>
      intro t' c h'
      rw [List.foldl_cons]
      unfold contractUpsertFor
      rcases hentry : contractEntry parsedEvents b with _ | entry
      · exact ih t' c h'
      · rcases contractUpsertOne_frame t' entry a r c h' with ⟨c', h''⟩
        exact ih _ c' h''
  have hr : t a = some { r with codeId := r.codeId } := by
    rw [h]
  exact hgen (uniqueContracts parsedEvents) t r.codeId hr

/-- A concrete pre-existing contract row for the C5 witness. -/
def demoContractRow : ContractRow :=
  { address := "c", codeId := 1, instantiatedAtBlockHeight := 5,
    instantiatedAtBlockTimeUnixMs := 50, instantiatedAtBlockTimestamp := 50 }

/-- A concrete parsed batch (same address, different `codeId`) for witnesses. -/
def demoParsedBatch : List ParsedWasmEvent :=
  [{ codeId := 2, contractAddress := "c", blockHeight := 9, blockTimeUnixMs := 90,
     key := "104,105", value := "hi", valueJson := JsonVal.str "hi", delete := false }]

/-- C5 witness: the frame theorem applied to a concrete table holding
`demoContractRow` and the batch `demoParsedBatch` with a different `codeId`. -/
theorem wasm_contract_upsert_preserves_instantiatedAt_witness :
    ∃ c, upsertContracts (fun a => if a = "c" then some demoContractRow else none)
        demoParsedBatch "c" = some { demoContractRow with codeId := c } :=
  wasm_contract_upsert_preserves_instantiatedAt
    (fun a => if a = "c" then some demoContractRow else none)
    demoParsedBatch "c" demoContractRow (by simp)

/-!
### State checkpoint (C7)

`updateStateCheckpoint` embeds the `State.update` call at `wasm.ts:312–336`:
all three checkpoint columns are written with SQL `GREATEST(current, new)`,
where the new values are the last parsed event's block height and time.
-/

/-- The singleton `State` row's checkpoint columns. -/
structure StateRow where
  lastWasmBlockHeightExported : Nat
  latestBlockHeight : Nat
  latestBlockTimeUnixMs : Nat
  deriving Repr, DecidableEq

/-- One flush's `State.update` with `GREATEST` on every column
(`lastBlockHeightExported` and `lastBlockTimeUnixMsExported` are the last
parsed event's values). -/
def updateStateCheckpoint (s : StateRow)
    (lastBlockHeightExported lastBlockTimeUnixMsExported : Nat) : StateRow :=
  { lastWasmBlockHeightExported :=
      max s.lastWasmBlockHeightExported lastBlockHeightExported
    latestBlockHeight := max s.latestBlockHeight lastBlockHeightExported
    latestBlockTimeUnixMs := max s.latestBlockTimeUnixMs lastBlockTimeUnixMsExported }

/-- C7.  Across every sequence of flushes the three checkpoint columns never
decrease: each flush stores the maximum of the stored value and the batch's
last values, so replaying older blocks cannot regress any checkpoint. -/
theorem wasm_state_checkpoint_monotone (s : StateRow) (updates : List (Nat × Nat)) :
    s.lastWasmBlockHeightExported ≤
      (updates.foldl (fun t u => updateStateCheckpoint t u.1 u.2) s).lastWasmBlockHeightExported ∧
    s.latestBlockHeight ≤
      (updates.foldl (fun t u => updateStateCheckpoint t u.1 u.2) s).latestBlockHeight ∧
    s.latestBlockTimeUnixMs ≤
      (updates.foldl (fun t u => updateStateCheckpoint t u.1 u.2) s).latestBlockTimeUnixMs := by
  induction updates generalizing s with
  | nil => exact ⟨le_refl _, le_refl _, le_refl _⟩
  | cons u rest ih =>
    rw [List.foldl_cons]
    rcases ih (updateStateCheckpoint s u.1 u.2) with ⟨h1, h2, h3⟩
    refine ⟨le_trans ?_ h1, le_trans ?_ h2, le_trans ?_ h3⟩
    · exact le_max_left _ _
    · exact le_max_left _ _
    · exact le_max_left _ _

/-!
### Webhook dispatcher (C2, C8)

`PendingWebhook.queueWebhooks` (part_001:105–221) is embedded as follows.
A processed webhook subscription carries a boolean `filter`, a `getValue`
function receiving the event and the result of the `getPrevious()` thunk, and
an `endpoint` resolution; `getValue`/`endpoint` throwing or returning
`undefined` is modelled by `Option.none` (both are caught and logged, then the
`value === undefined || endpoint === undefined` check skips the pair).

`previousEventInBatch` embeds the batch scan of the thunk *verbatim*,
including the source's comparison `e.key === e.key` (part_001:150), which is
always true.  `event.getPreviousEvent()` — the Event Store fallback, defined
outside the given sources — enters as the parameter `prevFromStore`.

A PendingWebhook row stores `eventId`; the DB id of an event is in bijection
with its unique `(blockHeight, contractAddress, key)` index, so the model uses
that triple as the identifier.
-/

/-- The unique index of a `WasmEvent` row, standing in for its DB id. -/
def eventTriple (p : ParsedWasmEvent) : Nat × String × String :=
  (p.blockHeight, p.contractAddress, p.key)

/-- A processed webhook subscription. -/
structure Webhook where
  filter : ParsedWasmEvent → Bool
  getValue : ParsedWasmEvent → JsonVal → Option JsonVal
  endpoint : ParsedWasmEvent → Option String

/-- A row of the `PendingWebhook` table. -/
structure PendingWebhookRow where
  eventId : Nat × String × String
  endpoint : String
  value : JsonVal
  failures : Nat
  deriving Repr, DecidableEq

/-- The batch scan inside the `getPrevious()` thunk (part_001:146–153),
embedded verbatim: the middle conjunct compares `e.key` with *itself*, so the
key is effectively ignored. -/
def previousEventInBatch (events : List ParsedWasmEvent) (event : ParsedWasmEvent) :
    Option ParsedWasmEvent :=
  (events.filter (fun e =>
    e.contractAddress == event.contractAddress &&
    (e.key == e.key) &&
    decide (e.blockHeight < event.blockHeight))).getLast?

/-- The `getPrevious()` thunk (part_001:140–164): batch scan first, Event
Store fallback second; a tombstone or a missing event yields `null`. -/
def getPreviousValue (prevFromStore : ParsedWasmEvent → Option ParsedWasmEvent)
    (events : List ParsedWasmEvent) (event : ParsedWasmEvent) : JsonVal :=
  match previousEventInBatch events event with
  | some previousEvent =>
      if previousEvent.delete then JsonVal.null else previousEvent.valueJson
  | none =>
      match prevFromStore event with
      | some lastEvent => if lastEvent.delete then JsonVal.null else lastEvent.valueJson
      | none => JsonVal.null

/-- The per-event body of `queueWebhooks`: one optional row per subscription
whose filter matches; `none` models a skipped (errored/undefined) pair. -/
def webhookRowsForEvent (prevFromStore : ParsedWasmEvent → Option ParsedWasmEvent)
    (webhooks : List Webhook) (events : List ParsedWasmEvent)
    (event : ParsedWasmEvent) : List (Option PendingWebhookRow) :=
  (webhooks.filter (fun w => w.filter event)).map (fun webhook =>
    match webhook.getValue event (getPreviousValue prevFromStore events event),
        webhook.endpoint event with
    | some value, some endpoint =>
        some { eventId := eventTriple event, endpoint := endpoint,
               value := value, failures := 0 }
    | _, _ => none)

/-- `PendingWebhook.queueWebhooks` (part_001:105–221): returns the rows passed
to `PendingWebhook.bulkCreate` (a plain insert). -/
def queueWebhooks (prevFromStore : ParsedWasmEvent → Option ParsedWasmEvent)
    (webhooks : List Webhook) (events : List ParsedWasmEvent) :
    List PendingWebhookRow :=
  if webhooks.isEmpty then []
  else ((events.map (webhookRowsForEvent prevFromStore webhooks events)).flatten).filterMap id

/-- Concrete events for the C2 failing input: two candidate previous events at
the same contract, keys `"k1"` and `"k2"`, then the current event at `"k1"`. -/
def prevSameKey : ParsedWasmEvent :=
  { codeId := 0, contractAddress := "c", blockHeight := 1, blockTimeUnixMs := 10,
    key := "k1", value := "a", valueJson := JsonVal.str "a", delete := false }

def prevOtherKey : ParsedWasmEvent :=
  { codeId := 0, contractAddress := "c", blockHeight := 2, blockTimeUnixMs := 20,
    key := "k2", value := "b", valueJson := JsonVal.str "b", delete := false }

def currentEvent : ParsedWasmEvent :=
  { codeId := 0, contractAddress := "c", blockHeight := 3, blockTimeUnixMs := 30,
    key := "k1", value := "c", valueJson := JsonVal.str "c", delete := false }

/-- C2 (failing input).  The batch holds a same-key event at block 1 with
value `"a"` and an other-key event at block 2 with value `"b"`; for the
current event (key `"k1"`, block 3) the thunk returns `"b"` — the most recent
*any-key* value — because the predicate compares `e.key === e.key`.  The claim
requires the most recent *same-key* value `"a"`. -/
theorem wasm_getPrevious_ignores_key :
    getPreviousValue (fun _ => none) [prevSameKey, prevOtherKey, currentEvent]
        currentEvent = JsonVal.str "b" ∧
    prevOtherKey.key ≠ currentEvent.key ∧
    prevSameKey.key = currentEvent.key ∧
    prevSameKey.blockHeight < prevOtherKey.blockHeight ∧
    prevOtherKey.blockHeight < currentEvent.blockHeight := by
  refine ⟨by decide, by decide, by decide, by decide, by decide⟩

theorem queueWebhooks_eq (prevFromStore : ParsedWasmEvent → Option ParsedWasmEvent)
    (webhooks : List Webhook) (events : List ParsedWasmEvent) :
    queueWebhooks prevFromStore webhooks events =
      ((events.map (webhookRowsForEvent prevFromStore webhooks events)).flatten).filterMap id := by
  unfold queueWebhooks
  cases webhooks with
  | nil => simp [webhookRowsForEvent]
  | cons w ws => rfl

theorem mem_webhookRowsForEvent_some
    (prevFromStore : ParsedWasmEvent → Option ParsedWasmEvent)
    (webhooks : List Webhook) (events : List ParsedWasmEvent)
    (ev : ParsedWasmEvent) (r : PendingWebhookRow)
    (h : some r ∈ webhookRowsForEvent prevFromStore webhooks events ev) :
    r.failures = 0 ∧ r.eventId = eventTriple ev := by
  rcases List.mem_map.mp h with ⟨w, _, heq⟩
  rcases hv : w.getValue ev (getPreviousValue prevFromStore events ev) with _ | v <;>
    rcases he : w.endpoint ev with _ | ep <;> rw [hv, he] at heq <;> simp only [] at heq
  · exact absurd heq (by simp)
  · exact absurd heq (by simp)
  · exact absurd heq (by simp)
  · have := (Option.some_inj.mp heq)
    rw [← this]
    exact ⟨rfl, rfl⟩

theorem filterMap_id_map_length {α β : Type} (g : α → Option β) (l : List α) :
    ((l.map g).filterMap id).length = (l.filter (fun a => (g a).isSome)).length := by
  have key : (l.map g).filterMap id = l.filterMap g := by
    rw [List.filterMap_map]
    rfl
  rw [key]
  induction l with
  | nil => rfl
  | cons a t ih =>
    rcases h : g a with _ | b <;> simp [h, ih]

theorem webhookRows_block_length
    (prevFromStore : ParsedWasmEvent → Option ParsedWasmEvent)
    (webhooks : List Webhook) (events : List ParsedWasmEvent) (ev : ParsedWasmEvent) :
    ((webhookRowsForEvent prevFromStore webhooks events ev).filterMap id).length =
      ((webhooks.filter (fun w => w.filter ev)).filter (fun w =>
        (w.getValue ev (getPreviousValue prevFromStore events ev)).isSome &&
        (w.endpoint ev).isSome)).length := by
  unfold webhookRowsForEvent
  rw [filterMap_id_map_length]
  congr 1
  apply List.filter_congr
  intro w _
  rcases hv : w.getValue ev (getPreviousValue prevFromStore events ev) with _ | v <;>
    rcases he : w.endpoint ev with _ | ep <;> simp [hv, he]

theorem webhookRows_block_filter_self
    (prevFromStore : ParsedWasmEvent → Option ParsedWasmEvent)
    (webhooks : List Webhook) (events : List ParsedWasmEvent) (ev : ParsedWasmEvent) :
    ((webhookRowsForEvent prevFromStore webhooks events ev).filterMap id).filter
        (fun r => r.eventId = eventTriple ev) =
      (webhookRowsForEvent prevFromStore webhooks events ev).filterMap id := by
  apply List.filter_eq_self.mpr
  intro r hr
  rcases List.mem_filterMap.mp hr with ⟨o, ho, hid⟩
  simp only [id] at hid
  subst hid
  have := mem_webhookRowsForEvent_some prevFromStore webhooks events ev r ho
  simp [this.2]

theorem webhookRows_block_filter_other
    (prevFromStore : ParsedWasmEvent → Option ParsedWasmEvent)
    (webhooks : List Webhook) (events : List ParsedWasmEvent)
    (ev ev' : ParsedWasmEvent) (hne : eventTriple ev' ≠ eventTriple ev) :
    ((webhookRowsForEvent prevFromStore webhooks events ev').filterMap id).filter
        (fun r => r.eventId = eventTriple ev) = [] := by
  apply List.filter_eq_nil_iff.mpr
  intro r hr
  rcases List.mem_filterMap.mp hr with ⟨o, ho, hid⟩
  simp only [id] at hid
  subst hid
  have := mem_webhookRowsForEvent_some prevFromStore webhooks events ev' r ho
  simp [this.2, hne]

theorem queue_filter_clean
    (prevFromStore : ParsedWasmEvent → Option ParsedWasmEvent)
    (webhooks : List Webhook) (events : List ParsedWasmEvent) (ev : ParsedWasmEvent) :
    ∀ (l : List ParsedWasmEvent), (∀ e' ∈ l, eventTriple e' ≠ eventTriple ev) →
      (((l.map (webhookRowsForEvent prevFromStore webhooks events)).flatten).filterMap id).filter
        (fun r => r.eventId = eventTriple ev) = [] := by
  intro l
  induction l with
  | nil => intro _; rfl
  | cons e t ih =>
    intro hl
    rw [List.map_cons, List.flatten_cons, List.filterMap_append, List.filter_append]
    rw [webhookRows_block_filter_other prevFromStore webhooks events ev e
        (hl e (List.mem_cons_self _ _)),
      ih (fun e' h' => hl e' (List.mem_cons_of_mem _ h'))]
    rfl

/-- C8.  During enqueue, for each event and each subscription whose filter
matches it: a `PendingWebhook` row is produced exactly when both the value
computation and the endpoint resolution are defined (neither threw nor
returned undefined), every produced row has `failures = 0`, and the number of
rows carrying an event's id equals the number of its matching subscriptions
with both parts defined — so a skipped pair never suppresses the rows of the
remaining subscriptions or events.  (The hypothesis says the batch has no
duplicate event ids, which the unique-index upsert guarantees.) -/
theorem wasm_queueWebhooks_spec
    (prevFromStore : ParsedWasmEvent → Option ParsedWasmEvent)
    (webhooks : List Webhook) (events : List ParsedWasmEvent)
    (hids : (events.map eventTriple).Nodup) :
    (∀ r ∈ queueWebhooks prevFromStore webhooks events, r.failures = 0) ∧
    (∀ ev ∈ events,
      ((queueWebhooks prevFromStore webhooks events).filter
          (fun r => r.eventId = eventTriple ev)).length =
        ((webhooks.filter (fun w => w.filter ev)).filter (fun w =>
            (w.getValue ev (getPreviousValue prevFromStore events ev)).isSome &&
            (w.endpoint ev).isSome)).length) := by
  constructor
  · intro r hr
    rw [queueWebhooks_eq] at hr
    rcases List.mem_filterMap.mp hr with ⟨o, ho, hid⟩
    simp only [id] at hid
    subst hid
    rcases List.mem_flatten.mp ho with ⟨blk, hblk, hoblk⟩
    rcases List.mem_map.mp hblk with ⟨ev, _, rfl⟩
    exact (mem_webhookRowsForEvent_some prevFromStore webhooks events ev r hoblk).1
  · intro ev hev
    rcases List.append_of_mem hev with ⟨l1, l2, rfl⟩
    have hclean : (∀ e' ∈ l1, eventTriple e' ≠ eventTriple ev) ∧
        (∀ e' ∈ l2, eventTriple e' ≠ eventTriple ev) := by
      rw [List.map_append, List.nodup_append] at hids
      obtain ⟨_, hnd2, hdisj⟩ := hids
      rw [List.map_cons, List.nodup_cons] at hnd2
      constructor
      · intro e' he' hcontra
        exact hdisj (List.mem_map.mpr ⟨e', he', hcontra⟩) (List.mem_cons_self _ _)
      · intro e' he' hcontra
        exact hnd2.1 (hcontra ▸ List.mem_map.mpr ⟨e', he', rfl⟩)
    rw [queueWebhooks_eq, List.map_append, List.map_cons, List.flatten_append,
      List.flatten_cons, List.filterMap_append, List.filterMap_append,
      List.filter_append, List.filter_append]
    rw [queue_filter_clean _ _ _ ev l1 hclean.1,
      queue_filter_clean _ _ _ ev l2 hclean.2,
      webhookRows_block_filter_self]
    rw [List.nil_append, List.append_nil]
    exact webhookRows_block_length _ _ _ ev

/-- An always-matching subscription with defined value and endpoint. -/
def demoWebhook : Webhook :=
  { filter := fun _ => true
    getValue := fun _ _ => some (JsonVal.str "v")
    endpoint := fun _ => some "https://example.test" }

/-- C8 witness: the enqueue theorem applied to the one-event batch
`[currentEvent]` and the single subscription `demoWebhook`. -/
theorem wasm_queueWebhooks_spec_witness :
    (∀ r ∈ queueWebhooks (fun _ => none) [demoWebhook] [currentEvent], r.failures = 0) ∧
    (∀ ev ∈ [currentEvent],
      ((queueWebhooks (fun _ => none) [demoWebhook] [currentEvent]).filter
          (fun r => r.eventId = eventTriple ev)).length =
        (([demoWebhook].filter (fun w => w.filter ev)).filter (fun w =>
            (w.getValue ev (getPreviousValue (fun _ => none) [currentEvent] ev)).isSome &&
            (w.endpoint ev).isSome)).length) :=
  wasm_queueWebhooks_spec (fun _ => none) [demoWebhook] [currentEvent] (by decide)

/-!
### The exporter and replay (C4)

`upsertEvents` embeds `WasmEvent.bulkCreate(parsedEvents, { updateOnDuplicate:
['value', 'valueJson', 'delete'] })` (wasm.ts:273–275); `exporterRun` embeds
the database effects of `exporter` (wasm.ts:183–349) on the tables present in
the given sources: `WasmEvent`, `Contract`, `State` and `PendingWebhook`.
Transformations and the computation-cache invalidation
(`WasmEventTransformation.transformParsedEvents`,
`updateComputationValidityDependentOnChanges`) are defined outside the given
sources and only feed counters and the change-set, so they are out of the
modelled table set.  `flushPipeline` is `flush` (wasm.ts:51–117): empty-buffer
early return, dedup, parse, export.
-/

/-- The `WasmEvent` table, keyed by its unique
`(blockHeight, contractAddress, key)` index. -/
def EventTable : Type := Nat × String × String → Option ParsedWasmEvent

/-- `bulkCreate` conflict resolution for one event row: insert when the triple
is fresh, otherwise update `value`, `valueJson` and `delete` only. -/
def eventUpsertOne (t : EventTable) (p : ParsedWasmEvent) : EventTable :=
  fun k =>
    if k = eventTriple p then
      match t k with
      | some old =>
          some { old with value := p.value, valueJson := p.valueJson, delete := p.delete }
      | none => some p
    else t k

/-- The whole `WasmEvent.bulkCreate` of one batch. -/
def upsertEvents (t : EventTable) (parsedEvents : List ParsedWasmEvent) : EventTable :=
  parsedEvents.foldl eventUpsertOne t

/-- The database state touched by the exporter, restricted to the tables whose
writing code is in the given sources. -/
structure Db where
  wasmEvents : EventTable
  contracts : ContractTable
  stateRow : StateRow
  pendingWebhooks : List PendingWebhookRow

/-- One `exporter` run on a parsed batch: contract upsert, event upsert,
webhook enqueue (`bulkCreate`, a plain insert appending rows), and the
`GREATEST` state update from the batch's last event. -/
def exporterRun (prevFromStore : ParsedWasmEvent → Option ParsedWasmEvent)
    (webhooks : List Webhook) (sendWebhooks : Bool)
    (db : Db) (parsedEvents : List ParsedWasmEvent) : Db :=
  let contracts' := upsertContracts db.contracts parsedEvents
  let events' := upsertEvents db.wasmEvents parsedEvents
  let exportedEvents := parsedEvents.map (fun p => (events' (eventTriple p)).getD p)
  let queued := if sendWebhooks
    then queueWebhooks prevFromStore webhooks exportedEvents else []
  let lastBlockHeightExported := (parsedEvents.map ParsedWasmEvent.blockHeight).getLastD 0
  let lastBlockTimeUnixMsExported := (parsedEvents.map ParsedWasmEvent.blockTimeUnixMs).getLastD 0
  { wasmEvents := events'
    contracts := contracts'
    stateRow := updateStateCheckpoint db.stateRow lastBlockHeightExported
      lastBlockTimeUnixMsExported
    pendingWebhooks := db.pendingWebhooks ++ queued }

/-- `flush` (wasm.ts:51–117): no-op on an empty buffer; otherwise dedup,
parse, and export. -/
def flushPipeline (decodeBase64Utf8 : String → String)
    (parseJson : String → Option JsonVal) (base64KeyToEventKey : String → String)
    (prevFromStore : ParsedWasmEvent → Option ParsedWasmEvent)
    (webhooks : List Webhook) (sendWebhooks : Bool)
    (db : Db) (pending : List IndexerWasmEvent) : Db :=
  if pending = [] then db
  else exporterRun prevFromStore webhooks sendWebhooks db
    ((dedupEvents pending).map
      (parseEvent decodeBase64Utf8 parseJson base64KeyToEventKey))

/-- The row resulting from upserting `p` over an optional existing row. -/
def mergeEventRow (o : Option ParsedWasmEvent) (p : ParsedWasmEvent) : ParsedWasmEvent :=
  match o with
  | some old => { old with value := p.value, valueJson := p.valueJson, delete := p.delete }
  | none => p

theorem eventUpsertOne_self (t : EventTable) (p : ParsedWasmEvent) :
    eventUpsertOne t p (eventTriple p) = some (mergeEventRow (t (eventTriple p)) p) := by
  unfold eventUpsertOne mergeEventRow
  rw [if_pos rfl]
  rcases h : t (eventTriple p) with _ | old <;> rfl

theorem eventUpsertOne_other (t : EventTable) (p : ParsedWasmEvent)
    (k : Nat × String × String) (h : k ≠ eventTriple p) : eventUpsertOne t p k = t k := by
  unfold eventUpsertOne
  rw [if_neg h]

theorem upsertEvents_not_mem (ps : List ParsedWasmEvent) (t : EventTable)
    (k : Nat × String × String) (h : ∀ p ∈ ps, eventTriple p ≠ k) :
    upsertEvents t ps k = t k := by
  induction ps generalizing t with
  | nil => rfl
  | cons q rest ih =>
    unfold upsertEvents
    rw [List.foldl_cons]
    have : (rest.foldl eventUpsertOne (eventUpsertOne t q)) k = (eventUpsertOne t q) k :=
      ih (eventUpsertOne t q) (fun p hp => h p (List.mem_cons_of_mem _ hp))
    rw [this]
    exact eventUpsertOne_other t q k
      (fun hk => h q (List.mem_cons_self _ _) hk.symm)

theorem upsertEvents_mem (ps : List ParsedWasmEvent)
    (hnd : (ps.map eventTriple).Nodup) (p : ParsedWasmEvent) (hp : p ∈ ps)
    (t : EventTable) :
    upsertEvents t ps (eventTriple p) = some (mergeEventRow (t (eventTriple p)) p) := by
  induction ps generalizing t with
  | nil => simp at hp
  | cons q rest ih =>
    rw [List.map_cons, List.nodup_cons] at hnd
    unfold upsertEvents
    rw [List.foldl_cons]
    rcases List.mem_cons.mp hp with rfl | hp'
    · have hclean : ∀ x ∈ rest, eventTriple x ≠ eventTriple p := by
        intro x hx hcontra
        exact hnd.1 (hcontra ▸ List.mem_map.mpr ⟨x, hx, rfl⟩)
      have := upsertEvents_not_mem rest (eventUpsertOne t p) (eventTriple p) hclean
      unfold upsertEvents at this
      rw [this]
      exact eventUpsertOne_self t p
    · have hqp : eventTriple p ≠ eventTriple q := by
        intro hcontra
        exact hnd.1 (hcontra ▸ List.mem_map.mpr ⟨p, hp', rfl⟩)
      have hstep : (eventUpsertOne t q) (eventTriple p) = t (eventTriple p) :=
        eventUpsertOne_other t q (eventTriple p) hqp
      have := ih hnd.2 hp' (eventUpsertOne t q)
      unfold upsertEvents at this
      rw [this, hstep]

theorem mergeEventRow_absorb (o : Option ParsedWasmEvent) (p : ParsedWasmEvent) :
    mergeEventRow (some (mergeEventRow o p)) p = mergeEventRow o p := by
  rcases o with _ | old <;> rfl

theorem upsertEvents_idem (t : EventTable) (ps : List ParsedWasmEvent)
    (hnd : (ps.map eventTriple).Nodup) (k : Nat × String × String) :
    upsertEvents (upsertEvents t ps) ps k = upsertEvents t ps k := by
  by_cases hex : ∃ p ∈ ps, eventTriple p = k
  · rcases hex with ⟨p, hp, rfl⟩
    rw [upsertEvents_mem ps hnd p hp (upsertEvents t ps),
      upsertEvents_mem ps hnd p hp t, mergeEventRow_absorb]
  · push_neg at hex
    rw [upsertEvents_not_mem ps (upsertEvents t ps) k hex]

/-- The row resulting from upserting `entry` over an optional existing row. -/
def mergeContractRow (o : Option ContractRow) (entry : ContractRow) : ContractRow :=
  match o with
  | some old => { old with codeId := entry.codeId }
  | none => entry

theorem contractEntry_address (ps : List ParsedWasmEvent) (a : String)
    (entry : ContractRow) (h : contractEntry ps a = some entry) : entry.address = a := by
  unfold contractEntry at h
  rcases hf : ps.find? (fun ev => ev.contractAddress = a) with _ | ev
  · rw [hf] at h
    simp at h
  · rw [hf] at h
    rw [← Option.some_inj.mp h]

theorem contractUpsertFor_at (ps : List ParsedWasmEvent) (t : ContractTable) (a : String) :
    (contractUpsertFor ps t a) a =
      match contractEntry ps a with
      | some entry => some (mergeContractRow (t a) entry)
      | none => t a := by
  rcases hentry : contractEntry ps a with _ | entry
  · unfold contractUpsertFor
    rw [hentry]
  · unfold contractUpsertFor
    rw [hentry]
    show contractUpsertOne t entry a = some (mergeContractRow (t a) entry)
    unfold contractUpsertOne mergeContractRow
    rw [if_pos (contractEntry_address ps a entry hentry).symm]
    rcases h : t a with _ | old <;> rfl

theorem contractUpsertFor_other (ps : List ParsedWasmEvent) (t : ContractTable)
    (b a : String) (h : a ≠ b) : (contractUpsertFor ps t b) a = t a := by
  rcases hentry : contractEntry ps b with _ | entry
  · unfold contractUpsertFor
    rw [hentry]
  · unfold contractUpsertFor
    rw [hentry]
    show contractUpsertOne t entry a = t a
    unfold contractUpsertOne
    rw [if_neg (by rw [contractEntry_address ps b entry hentry]; exact h)]

theorem foldAddrs_not_mem (ps : List ParsedWasmEvent) (addrs : List String)
    (t : ContractTable) (a : String) (h : a ∉ addrs) :
    (addrs.foldl (contractUpsertFor ps) t) a = t a := by
  induction addrs generalizing t with
  | nil => rfl
  | cons b rest ih =>
    rw [List.foldl_cons]
    rw [ih (contractUpsertFor ps t b) (fun hr => h (List.mem_cons_of_mem _ hr))]
    exact contractUpsertFor_other ps t b a (fun hab => h (hab ▸ List.mem_cons_self _ _))

theorem foldAddrs_mem (ps : List ParsedWasmEvent) (addrs : List String)
    (hnd : addrs.Nodup) (a : String) (ha : a ∈ addrs) (t : ContractTable) :
    (addrs.foldl (contractUpsertFor ps) t) a =
      match contractEntry ps a with
      | some entry => some (mergeContractRow (t a) entry)
      | none => t a := by
  induction addrs generalizing t with
  | nil => simp at ha
  | cons b rest ih =>
    rw [List.nodup_cons] at hnd
    rw [List.foldl_cons]
    rcases List.mem_cons.mp ha with rfl | ha'
    · rw [foldAddrs_not_mem ps rest (contractUpsertFor ps t a) a hnd.1]
      exact contractUpsertFor_at ps t a
    · have hab : a ≠ b := fun hcontra => hnd.1 (hcontra ▸ ha')
      rw [ih hnd.2 ha' (contractUpsertFor ps t b),
        contractUpsertFor_other ps t b a hab]

theorem mergeContractRow_absorb (o : Option ContractRow) (entry : ContractRow) :
    mergeContractRow (some (mergeContractRow o entry)) entry = mergeContractRow o entry := by
  rcases o with _ | old <;> rfl

theorem uniqueContracts_nodup (ps : List ParsedWasmEvent) : (uniqueContracts ps).Nodup := by
  suffices H : ∀ (l : List ParsedWasmEvent) (acc : List String), acc.Nodup →
      (l.foldl (fun acc' e =>
        if e.contractAddress ∈ acc' then acc' else acc' ++ [e.contractAddress]) acc).Nodup by
    exact H ps [] List.nodup_nil
  intro l
  induction l with
  | nil => intro acc hacc; simpa using hacc
  | cons e rest ih =>
    intro acc hacc
    rw [List.foldl_cons]
    apply ih
    by_cases h : e.contractAddress ∈ acc
    · rw [if_pos h]
      exact hacc
    · rw [if_neg h]
      rw [List.nodup_append]
      exact ⟨hacc, List.nodup_singleton _, by
        intro x hx hx'
        simp only [List.mem_singleton] at hx'
        exact h (hx' ▸ hx)⟩

theorem upsertContracts_idem (t : ContractTable) (ps : List ParsedWasmEvent)
    (a : String) :
    upsertContracts (upsertContracts t ps) ps a = upsertContracts t ps a := by
  unfold upsertContracts
  by_cases ha : a ∈ uniqueContracts ps
  · rw [foldAddrs_mem ps (uniqueContracts ps) (uniqueContracts_nodup ps) a ha
      ((uniqueContracts ps).foldl (contractUpsertFor ps) t),
      foldAddrs_mem ps (uniqueContracts ps) (uniqueContracts_nodup ps) a ha t]
    rcases hentry : contractEntry ps a with _ | entry
    · rfl
    · show some (mergeContractRow (some (mergeContractRow (t a) entry)) entry)
        = some (mergeContractRow (t a) entry)
      rw [mergeContractRow_absorb]
  · rw [foldAddrs_not_mem ps (uniqueContracts ps)
      ((uniqueContracts ps).foldl (contractUpsertFor ps) t) a ha]

theorem updateStateCheckpoint_absorb (s : StateRow) (h t : Nat) :
    updateStateCheckpoint (updateStateCheckpoint s h t) h t = updateStateCheckpoint s h t := by
  unfold updateStateCheckpoint
  simp only [StateRow.mk.injEq]
  refine ⟨?_, ?_, ?_⟩ <;> rw [max_assoc, max_self]

theorem dedup_concatKey_nodup (pending : List IndexerWasmEvent) :
    ((dedupEvents pending).map concatKey).Nodup := by
  unfold dedupEvents
  have h2 := mem_uniqueIndexerEvents_key pending
  have hmaps : ((uniqueIndexerEvents pending).map Prod.snd).map concatKey
      = (uniqueIndexerEvents pending).map Prod.fst := by
    rw [List.map_map]
    apply List.map_congr_left
    intro p hp
    exact (h2 p hp).symm
  rw [hmaps]
  exact nodup_keys_uniqueIndexerEvents pending

theorem parsed_triples_nodup (decodeBase64Utf8 : String → String)
    (parseJson : String → Option JsonVal) (base64KeyToEventKey : String → String)
    (hinj : Function.Injective base64KeyToEventKey)
    (pending : List IndexerWasmEvent) :
    (((dedupEvents pending).map
      (parseEvent decodeBase64Utf8 parseJson base64KeyToEventKey)).map eventTriple).Nodup := by
  rw [List.map_map]
  have hck := dedup_concatKey_nodup pending
  have hl : (dedupEvents pending).Nodup := hck.of_map _
  rw [List.nodup_map_iff_inj_on hl]
  intro x hx y hy hxy
  have hcomp : x.blockHeight = y.blockHeight ∧ x.contractAddress = y.contractAddress
      ∧ base64KeyToEventKey x.key = base64KeyToEventKey y.key := by
    simpa [eventTriple, parseEvent] using hxy
  have hkey : x.key = y.key := hinj hcomp.2.2
  have hconcat : concatKey x = concatKey y := by
    unfold concatKey
    rw [hcomp.1, hcomp.2.1, hkey]
  exact (List.nodup_map_iff_inj_on hl).mp hck x hx y hy hconcat

/-- C4 (amended).  Replaying the same input segment through the full
flush/export pipeline leaves the `WasmEvent`, `Contract` and `State` tables
exactly as after the first run (every upsert is idempotent and the checkpoint
update is an absorbing max) — but *not* the `PendingWebhook` table, which is
written by a plain `bulkCreate` insert and therefore accumulates the queued
rows again on every replay.  (The hypothesis is injectivity of the key
canonicalization, which the spec asserts — `base64KeyToEventKey` round-trips.) -/
theorem wasm_flush_replay_idempotent_except_webhooks
    (decodeBase64Utf8 : String → String) (parseJson : String → Option JsonVal)
    (base64KeyToEventKey : String → String)
    (prevFromStore : ParsedWasmEvent → Option ParsedWasmEvent)
    (webhooks : List Webhook) (sendWebhooks : Bool) (db : Db)
    (pending : List IndexerWasmEvent)
    (hinj : Function.Injective base64KeyToEventKey) :
    (∀ k, (flushPipeline decodeBase64Utf8 parseJson base64KeyToEventKey prevFromStore
        webhooks sendWebhooks
        (flushPipeline decodeBase64Utf8 parseJson base64KeyToEventKey prevFromStore
          webhooks sendWebhooks db pending) pending).wasmEvents k =
      (flushPipeline decodeBase64Utf8 parseJson base64KeyToEventKey prevFromStore
        webhooks sendWebhooks db pending).wasmEvents k) ∧
    (∀ a, (flushPipeline decodeBase64Utf8 parseJson base64KeyToEventKey prevFromStore
        webhooks sendWebhooks
        (flushPipeline decodeBase64Utf8 parseJson base64KeyToEventKey prevFromStore
          webhooks sendWebhooks db pending) pending).contracts a =
      (flushPipeline decodeBase64Utf8 parseJson base64KeyToEventKey prevFromStore
        webhooks sendWebhooks db pending).contracts a) ∧
    (flushPipeline decodeBase64Utf8 parseJson base64KeyToEventKey prevFromStore
        webhooks sendWebhooks
        (flushPipeline decodeBase64Utf8 parseJson base64KeyToEventKey prevFromStore
          webhooks sendWebhooks db pending) pending).stateRow =
      (flushPipeline decodeBase64Utf8 parseJson base64KeyToEventKey prevFromStore
        webhooks sendWebhooks db pending).stateRow := by
  by_cases hp : pending = []
  · unfold flushPipeline
    rw [if_pos hp, if_pos hp]
    exact ⟨fun _ => rfl, fun _ => rfl, rfl⟩
  · have hnd := parsed_triples_nodup decodeBase64Utf8 parseJson base64KeyToEventKey
      hinj pending
    unfold flushPipeline
    rw [if_neg hp, if_neg hp]
    unfold exporterRun
    refine ⟨?_, ?_, ?_⟩
    · intro k
      exact upsertEvents_idem db.wasmEvents _ hnd k
    · intro a
      exact upsertContracts_idem db.contracts _ a
    · exact updateStateCheckpoint_absorb db.stateRow _ _

/-- The empty database. -/
def demoDb0 : Db :=
  { wasmEvents := fun _ => none, contracts := fun _ => none,
    stateRow := { lastWasmBlockHeightExported := 0, latestBlockHeight := 0,
                  latestBlockTimeUnixMs := 0 },
    pendingWebhooks := [] }

/-- C4 counterexample.  Running the full flush/export pipeline (computations
and webhooks enabled) twice on the same one-event segment does *not* reproduce
the database state of a single run: the `PendingWebhook` table holds two
identical rows after the replay but one row after a single run, because
`PendingWebhook.bulkCreate` is a plain insert with no uniqueness or upsert. -/
theorem wasm_flush_replay_duplicates_pendingWebhooks :
    (flushPipeline (fun s => s) (fun _ => some JsonVal.null) (fun s => s) (fun _ => none)
        [demoWebhook] true
        (flushPipeline (fun s => s) (fun _ => some JsonVal.null) (fun s => s) (fun _ => none)
          [demoWebhook] true demoDb0 [demoRawEvent])
        [demoRawEvent]).pendingWebhooks.length = 2 ∧
    (flushPipeline (fun s => s) (fun _ => some JsonVal.null) (fun s => s) (fun _ => none)
        [demoWebhook] true demoDb0 [demoRawEvent]).pendingWebhooks.length = 1 := by
  exact ⟨by decide, by decide⟩

/-- C4 witness: the replay theorem applied to the empty database and the
concrete one-event segment, with the identity key canonicalization. -/
theorem wasm_flush_replay_idempotent_except_webhooks_witness :
    (∀ k, (flushPipeline (fun s => s) (fun _ => some JsonVal.null) (fun s => s)
        (fun _ => none) [demoWebhook] true
        (flushPipeline (fun s => s) (fun _ => some JsonVal.null) (fun s => s)
          (fun _ => none) [demoWebhook] true demoDb0 [demoRawEvent])
        [demoRawEvent]).wasmEvents k =
      (flushPipeline (fun s => s) (fun _ => some JsonVal.null) (fun s => s)
        (fun _ => none) [demoWebhook] true demoDb0 [demoRawEvent]).wasmEvents k) ∧
    (∀ a, (flushPipeline (fun s => s) (fun _ => some JsonVal.null) (fun s => s)
        (fun _ => none) [demoWebhook] true
        (flushPipeline (fun s => s) (fun _ => some JsonVal.null) (fun s => s)
          (fun _ => none) [demoWebhook] true demoDb0 [demoRawEvent])
        [demoRawEvent]).contracts a =
      (flushPipeline (fun s => s) (fun _ => some JsonVal.null) (fun s => s)
        (fun _ => none) [demoWebhook] true demoDb0 [demoRawEvent]).contracts a) ∧
    (flushPipeline (fun s => s) (fun _ => some JsonVal.null) (fun s => s)
        (fun _ => none) [demoWebhook] true
        (flushPipeline (fun s => s) (fun _ => some JsonVal.null) (fun s => s)
          (fun _ => none) [demoWebhook] true demoDb0 [demoRawEvent])
        [demoRawEvent]).stateRow =
      (flushPipeline (fun s => s) (fun _ => some JsonVal.null) (fun s => s)
        (fun _ => none) [demoWebhook] true demoDb0 [demoRawEvent]).stateRow :=
  wasm_flush_replay_idempotent_except_webhooks (fun s => s) (fun _ => some JsonVal.null)
    (fun s => s) (fun _ => none) [demoWebhook] true demoDb0 [demoRawEvent]
    (fun _ _ h => h)

/-!
### Voting-power dispatch (C9)

`votingPower` / `totalPower` (part_000:234–270) resolve the voting module's
`contract_info`, then look up
`VOTING_POWER_MAP['crates.io:' + votingModuleInfo.contract]` and throw
`Unexpected voting module` when the lookup misses.  The sub-formulas
(`daoVotingCw4VotingPower`, …) live in modules outside the given sources, so
the tables map to opaque formula tags; the dispatch logic itself is embedded
exactly: dispatch is a function of the resolved `contract_info.contract`
string.
-/

/-- `VOTING_POWER_MAP` (part_000:273–283), with formula values as tags. -/
def VOTING_POWER_MAP : List (String × String) :=
  [("cw4-voting", "daoVotingCw4VotingPower"),
   ("cwd-voting-cw4", "daoVotingCw4VotingPower"),
   ("dao-voting-cw4", "daoVotingCw4VotingPower"),
   ("cw20-staked-balance-voting", "daoVotingCw20StakedVotingPower"),
   ("cwd-voting-cw20-staked", "daoVotingCw20StakedVotingPower"),
   ("dao-voting-cw20-staked", "daoVotingCw20StakedVotingPower")]

/-- `TOTAL_POWER_MAP` (part_000:286–293). -/
def TOTAL_POWER_MAP : List (String × String) :=
  [("cw4-voting", "daoVotingCw4TotalPower"),
   ("cwd-voting-cw4", "daoVotingCw4TotalPower"),
   ("dao-voting-cw4", "daoVotingCw4TotalPower"),
   ("cw20-staked-balance-voting", "daoVotingCw20StakedTotalPower"),
   ("cwd-voting-cw20-staked", "daoVotingCw20StakedTotalPower"),
   ("dao-voting-cw20-staked", "daoVotingCw20StakedTotalPower")]

/-- `TABLE['crates.io:' + votingModuleInfo.contract]` — the JS property read. -/
def powerMapLookup (table : List (String × String)) (contract : String) : Option String :=
  (table.find? (fun p => p.1 = "crates.io:" ++ contract)).map Prod.snd

/-- The dispatch step of `votingPower` (part_000:243–251) as a function of the
resolved `contract_info.contract`: the chosen sub-formula, or the thrown
error. -/
def votingPowerDispatch (contract : String) : Except String String :=
  match powerMapLookup VOTING_POWER_MAP contract with
  | some f => Except.ok f
  | none => Except.error ("Unexpected voting module: " ++ contract)

/-- The dispatch step of `totalPower` (part_000:261–269). -/
def totalPowerDispatch (contract : String) : Except String String :=
  match powerMapLookup TOTAL_POWER_MAP contract with
  | some f => Except.ok f
  | none => Except.error ("Unexpected voting module: " ++ contract)

/-- C9 (failing input).  `'dao-voting-cw4'` is literally a key of both
dispatch tables, yet both dispatches throw `Unexpected voting module` for a
voting module whose `contract_info.contract` is `'dao-voting-cw4'`: the lookup
key is built as `'crates.io:' + contract`, while the table keys carry no such
prefix, so no contract name can ever hit the table. -/
theorem wasm_votingPower_dispatch_never_matches :
    ("dao-voting-cw4" ∈ VOTING_POWER_MAP.map Prod.fst) ∧
    votingPowerDispatch "dao-voting-cw4" =
      Except.error "Unexpected voting module: dao-voting-cw4" ∧
    ("dao-voting-cw4" ∈ TOTAL_POWER_MAP.map Prod.fst) ∧
    totalPowerDispatch "dao-voting-cw4" =
      Except.error "Unexpected voting module: dao-voting-cw4" := by
  refine ⟨by decide, by rfl, by decide, by rfl⟩

/-!
### The `item` formula (C10)

`item` (part_000:178–182) reads
`await get<Record<string, string>>(contractAddress, 'items')?.[key]`.
Member access binds tighter than `await`, so the optional-chain subscript is
applied to the *promise* returned by `get`, not to the resolved map.  The
embedding models just enough of JavaScript: a promise is a wrapper value whose
string-keyed properties are the methods inherited from `Promise.prototype`
and `Object.prototype` (its resolved payload is held in internal slots and is
unreachable by property access); `await` unwraps a promise and passes every
non-thenable value through.
-/

/-- A JavaScript value, as far as the `item` formula needs one. -/
inductive JsValue where
  | undef
  | jsNull
  | jsStr (s : String)
  | record (entries : List (String × String))
  | promise (resolved : JsValue)
  | builtinFn (name : String)
  deriving Repr, DecidableEq

/-- String-keyed properties a promise object inherits from
`Promise.prototype` and `Object.prototype`. -/
def promiseProtoProps : List String :=
  ["then", "catch", "finally", "constructor", "toString", "toLocaleString",
   "valueOf", "hasOwnProperty", "isPrototypeOf", "propertyIsEnumerable",
   "__proto__", "__defineGetter__", "__defineSetter__", "__lookupGetter__",
   "__lookupSetter__"]

/-- Property read `v[key]` on a non-nullish value.  A promise's payload lives
in internal slots, so only the prototype methods are reachable; a record
yields its entry. -/
def subscriptJs (v : JsValue) (key : String) : JsValue :=
  match v with
  | JsValue.promise _ =>
      if key ∈ promiseProtoProps then JsValue.builtinFn key else JsValue.undef
  | JsValue.record entries =>
      match entries.lookup key with
      | some s => JsValue.jsStr s
      | none => JsValue.undef
  | _ => JsValue.undef

/-- Optional chaining `v?.[key]`: short-circuits on nullish values. -/
def optChainSubscript (v : JsValue) (key : String) : JsValue :=
  match v with
  | JsValue.undef => JsValue.undef
  | JsValue.jsNull => JsValue.undef
  | _ => subscriptJs v key

/-- `await v`: unwraps a promise, passes any non-thenable value through. -/
def awaitJs (v : JsValue) : JsValue :=
  match v with
  | JsValue.promise r => r
  | _ => v

/-- The `item` formula (part_000:178–182):
`await get(contractAddress, 'items')?.[key]`.  `get` is asynchronous, so its
call returns a promise wrapping the stored value; the subscript is applied to
that promise before the `await`. -/
def itemFormula (get : String → String → JsValue) (contractAddress : String)
    (key : String) : JsValue :=
  awaitJs (optChainSubscript (JsValue.promise (get contractAddress "items")) key)

/-- C10.  For every `args.key` that is not the name of a built-in promise
property, `item` returns `undefined` regardless of the contract's stored
`items` map: the subscript is evaluated on the un-awaited promise, so the
result is independent of the indexed state. -/
theorem wasm_item_formula_ignores_state (get get' : String → String → JsValue)
    (contractAddress key : String) (h : key ∉ promiseProtoProps) :
    itemFormula get contractAddress key = JsValue.undef ∧
    itemFormula get contractAddress key = itemFormula get' contractAddress key := by
  have e1 : itemFormula get contractAddress key
      = awaitJs (if key ∈ promiseProtoProps then JsValue.builtinFn key else JsValue.undef) := rfl
  have e2 : itemFormula get' contractAddress key
      = awaitJs (if key ∈ promiseProtoProps then JsValue.builtinFn key else JsValue.undef) := rfl
  rw [e1, e2, if_neg h]
  exact ⟨rfl, rfl⟩

/-- C10 witness: the `item` theorem applied to two concrete `get` functions
returning different stored `items` maps, and the concrete key `"widget"`. -/
theorem wasm_item_formula_ignores_state_witness :
    itemFormula (fun _ _ => JsValue.record [("widget", "a")]) "dao" "widget"
        = JsValue.undef ∧
    itemFormula (fun _ _ => JsValue.record [("widget", "a")]) "dao" "widget"
      = itemFormula (fun _ _ => JsValue.record [("widget", "b")]) "dao" "widget" :=
  wasm_item_formula_ignores_state (fun _ _ => JsValue.record [("widget", "a")])
    (fun _ _ => JsValue.record [("widget", "b")]) "dao" "widget" (by decide)

end WasmdIndexer
